import Mathlib

/-!
Shallow embedding of `src/prime_functions.py` and `src/miller_rabin.py`.

Python integers are modeled as `Int` / `Nat` (arbitrary precision); Python
floats are modeled as the exact rationals they denote where a claim concerns
the float-validation path. Python `raise ValueError(msg)` and a failed
`assert _, msg` are modeled as `Except.error msg`. The expression
`int(sqrt(n))` (C double square root, truncated) is modeled as the exact
integer square root `Nat.sqrt n`, with which it agrees on all inputs small
enough for the double to be exact.
-/

namespace PrimeFunctions

/-- Decidable equality for `Except`, so that concrete runs of the embedded
functions can be settled by `decide`. -/
instance {ε α : Type} [DecidableEq ε] [DecidableEq α] : DecidableEq (Except ε α) := fun a b =>
  match a, b with
  | .ok a, .ok b =>
    if h : a = b then .isTrue (by rw [h]) else .isFalse (by intro hc; cases hc; exact h rfl)
  | .error a, .error b =>
    if h : a = b then .isTrue (by rw [h]) else .isFalse (by intro hc; cases hc; exact h rfl)
  | .ok _, .error _ => .isFalse (by intro hc; cases hc)
  | .error _, .ok _ => .isFalse (by intro hc; cases hc)

/-- Downward scan computing the integer square root: largest `k < fuel` with
`k * k ≤ n` (and `0` if there is none). Structural recursion, so that the
kernel can evaluate it on concrete inputs. -/
def isqrtAux (n : Nat) : Nat → Nat
  | 0 => 0
  | k + 1 => if k * k ≤ n then k else isqrtAux n k

/-- Integer square root used to model Python `int(sqrt(n))`: the truncated
C double square root agrees with the exact integer square root on all inputs
small enough for the double computation to be exact. Proved equal to
`Nat.sqrt` below (`isqrt_eq_sqrt`). -/
def isqrt (n : Nat) : Nat := isqrtAux n (n + 1)

/-! ## Sieve: `get_primes` and `get_primes_without_numpy` -/

/-- Slice assignment `sieve[start::step] = [False] * c` from
`get_primes_without_numpy`: clears `c` cells `start, start+step, ...` one at a
time. Out-of-range `List.set` is the identity (the Python slice assignment
never goes out of range; this is proved below as `count_iff`). -/
def clearCount (s : List Bool) (start step : Nat) : Nat → List Bool
  | 0 => s
  | c + 1 => clearCount (s.set start false) (start + step) step c

/-- Count `(N - p*p - 1) // (2*p) + 1` of cells assigned by
`get_primes_without_numpy`, with Python floor division (`Int.fdiv`); the
list `[False] * c` is empty for `c ≤ 0`. -/
def sliceCount (N p : Nat) : Int := ((N : Int) - p * p - 1).fdiv (2 * p) + 1

/-- Loop range `range(3, int(sqrt(N)) + 1, 2)` used by both sieves and by
`prime_factors`: the odd numbers `3, 5, ...` up to `isqrt N`. -/
def pList (N : Nat) : List Nat := List.range' 3 ((isqrt N - 1) / 2) 2

/-- Loop body of `get_primes_without_numpy`:
`if sieve[p//2]: sieve[p*p//2::p] = [False]*((N-p*p-1)//(2*p)+1)`. -/
def sieveStepNN (N : Nat) (s : List Bool) (p : Nat) : List Bool :=
  if s.getD (p / 2) false then clearCount s (p * p / 2) p (sliceCount N p).toNat else s

/-- Sieve state of `get_primes_without_numpy` after its whole `for` loop,
starting from `[True] * (N//2)`. -/
def sieveNN (N : Nat) : List Bool :=
  (pList N).foldl (sieveStepNN N) (List.replicate (N / 2) true)

/-- Result list `[2] + [2*p+1 for p in range(1, N//2) if sieve[p]]`. -/
def primesListNN (N : Nat) : List Nat :=
  2 :: ((List.range' 1 (N / 2 - 1)).filter (fun i => (sieveNN N).getD i false)).map
    (fun i => 2 * i + 1)

/-- Embedding of `get_primes_without_numpy(N)`, including its validation. -/
def get_primes_without_numpy (N : Int) : Except String (List Nat) :=
  if N ≤ 0 then .error "Number must be positive!"
  else if N < 3 then .error "There are no primes smaller than 2!"
  else .ok (primesListNN N.toNat)

/-- numpy slice assignment `sieve[start::step] = False` from `get_primes`:
clears every cell of the slice. -/
def clearAll (s : List Bool) (start step : Nat) : List Bool :=
  List.zipWith (fun i b => if start ≤ i ∧ (i - start) % step = 0 then false else b)
    (List.range s.length) s

/-- Loop body of `get_primes`: `if sieve[p//2]: sieve[p*p//2::p] = False`. -/
def sieveStepNP (_N : Nat) (s : List Bool) (p : Nat) : List Bool :=
  if s.getD (p / 2) false then clearAll s (p * p / 2) p else s

/-- Sieve state of `get_primes` after its whole `for` loop. The unused `N`
parameter keeps the two sieve models parallel. -/
def sieveNP (N : Nat) : List Bool :=
  (pList N).foldl (sieveStepNP N) (List.replicate (N / 2) true)

/-- Result array `np.r_[2, 2*np.nonzero(sieve)[0][1::]+1]` of `get_primes`:
the ascending indices of `True` cells with the first one dropped, each mapped
to `2*i + 1`, with `2` prepended. -/
def primesListNP (N : Nat) : List Nat :=
  2 :: ((((List.range (N / 2)).filter (fun i => (sieveNP N).getD i false)).drop 1).map
    (fun i => 2 * i + 1))

/-- Embedding of `get_primes(N)`, including its validation. -/
def get_primes (N : Int) : Except String (List Nat) :=
  if N ≤ 0 then .error "Number must be positive!"
  else if N < 3 then .error "There are no primes smaller than 2!"
  else .ok (primesListNP N.toNat)

/-! ## Miller-Rabin core -/

/-- Square-and-multiply modular exponentiation with explicit fuel
(`fuel = d` always suffices; the exponent halves each step). Python
`pow(a, d, n)` computes exactly this; proved equal to `a ^ d % n` below
(`powMod_eq`). -/
def powModAux (n : Nat) : Nat → Nat → Nat → Nat
  | 0, _, _ => 1 % n
  | fuel + 1, a, d =>
    if d = 0 then 1 % n
    else
      let r := powModAux n fuel (a * a % n) (d / 2)
      if d % 2 = 1 then r * a % n else r

/-- Model of Python `pow(a, d, n)` (three-argument `pow`, a fast binary
method reducing modulo `n` at every step). -/
def powMod (a d n : Nat) : Nat := powModAux n d a d

/-- Squaring loop of `maybe_prime`:
`for _ in range(k): x = x*x % n; if x == n-1: return True` then
`return False`, with the fuel `k` explicit. -/
def squareLoop (n : Nat) : Nat → Nat → Bool
  | _, 0 => false
  | x, k + 1 => if x * x % n = n - 1 then true else squareLoop n (x * x % n) k

/-- Single-witness test `maybe_prime(a)` shared (textually identically) by
`miller_rabin`, `miller_rabin_classic` and `miller_rabin_minimal`:
`x = pow(a, d, n); if x in {1, n-1}: return True`, then the squaring loop
bounded by `r - 1`. -/
def maybe_prime (n d r a : Nat) : Bool :=
  let x := powMod a d n
  if x = 1 ∨ x = n - 1 then true else squareLoop n x (r - 1)

/-- Decomposition loop with explicit fuel (structural recursion, so the
kernel can evaluate it); `fuel = d` always suffices, since each iteration
halves `d` and the loop stops at odd `d`. -/
def decomposeAux : Nat → Nat → Nat → Nat × Nat
  | 0, d, r => (d, r)
  | fuel + 1, d, r => if 0 < d ∧ d % 2 = 0 then decomposeAux fuel (d / 2) (r + 1) else (d, r)

/-- Decomposition loop `d, r = n - 1, 1; while d % 2 == 0: d //= 2; r += 1`,
called by the three Miller-Rabin variants with `d = n - 1`, `r = 1`. At
`d = 0` the Python loop would not terminate; every caller excludes that state
(it arises only from `n = 1`, which is returned early). -/
def decompose (d r : Nat) : Nat × Nat := decomposeAux d d r

/-- Default small-prime set `{2, 3, 5, 7, 11, 13, 17, 19}` of `miller_rabin`
(a Python set of constants; modeled as a list, its order irrelevant to the
membership and divisibility checks made of it). -/
def knownPrimes8 : List Nat := [2, 3, 5, 7, 11, 13, 17, 19]

/-- Witness selection chain of `miller_rabin` in `miller_rabin.py`; `none`
stands for the final `else` branch, where the Python code samples `k` random
witnesses with `np.random.choice`. -/
def witnessTable (n : Nat) : Option (List Nat) :=
  if n < 2047 then some [2]
  else if n < 1373653 then some [2, 3]
  else if n < 9080191 then some [31, 73]
  else if n < 25326001 then some [2, 3, 5]
  else if n < 3215031751 then some [2, 3, 5, 7]
  else if n < 4759123141 then some [2, 7, 61]
  else if n < 1122004669633 then some [2, 13, 23, 1662803]
  else if n < 2152302898747 then some [2, 3, 5, 7, 11]
  else if n < 3474749660383 then some [2, 3, 5, 7, 11, 13]
  else if n < 341550071728321 then some [2, 3, 5, 7, 11, 13, 17]
  else if n < 3825123056546413051 then some [2, 3, 5, 7, 11, 13, 17, 19, 23]
  else if n < 318665857834031151167461 then
    some [2, 3, 5, 7, 11, 13, 17, 19, 23, 29, 31, 37]
  else if n < 3317044064679887385961981 then
    some [2, 3, 5, 7, 11, 13, 17, 19, 23, 29, 31, 37, 41]
  else none

/-- Embedding of `miller_rabin(n, k, known_primes=None)` from
`miller_rabin.py`, with the default `known_primes`. The two `assert`
statements are modeled as error values (`assert isinstance(n, int)` means the
function takes only integers); the random sample of size `k` drawn in the
final table branch is modeled by the parameter `rand`. -/
def miller_rabin (n : Int) (rand : List Nat) : Except String Bool :=
  if n ≤ 0 then .error "Number must be greater than zero!"
  else
    let m := n.toNat
    if m = 1 then .ok false
    else if m ∈ knownPrimes8 then .ok true
    else if knownPrimes8.any (fun p => m % p = 0) then .ok false
    else
      let dr := decompose (m - 1) 1
      let ws := (witnessTable m).getD rand
      .ok (ws.all (fun a => maybe_prime m dr.1 dr.2 a))

/-- List `primes = [int(p) for p in get_primes(100)]` computed by
`miller_rabin_classic` and `miller_rabin_minimal`. -/
def primes100 : List Nat := primesListNP 100

/-- Witness selection chain of `miller_rabin_classic` (prefixes of
`primes100`). -/
def classicWitnesses (n : Nat) : List Nat :=
  if n < 2047 then primes100.take 1
  else if n < 1373653 then primes100.take 2
  else if n < 25326001 then primes100.take 3
  else if n < 3215031751 then primes100.take 4
  else if n < 2152302898747 then primes100.take 5
  else if n < 3474749660383 then primes100.take 6
  else if n < 341550071728321 then primes100.take 7
  else if n < 3825123056546413051 then primes100.take 9
  else if n < 318665857834031151167461 then primes100.take 12
  else if n < 3317044064679887385961981 then primes100.take 13
  else primes100

/-- Embedding of `miller_rabin_classic(n)` for integer input (the float
branch is `miller_rabin_classic_float` below). -/
def miller_rabin_classic (n : Int) : Except String Bool :=
  if n < 0 then .error "Number must be positive!"
  else
    let m := n.toNat
    if m = 0 ∨ m = 1 then .ok false
    else if m ∈ primes100 then .ok true
    else if primes100.any (fun p => m % p = 0) then .ok false
    else
      let dr := decompose (m - 1) 1
      .ok ((classicWitnesses m).all (fun a => maybe_prime m dr.1 dr.2 a))

/-- Float-input branch of `miller_rabin_classic`. A Python float is modeled
as the exact rational it denotes; for the nonnegative values that reach the
conversion, `int(n)` truncation is the floor, and the literal `1e-6` is
modeled as `1 / 1000000`. -/
def miller_rabin_classic_float (q : ℚ) : Except String Bool :=
  if q < 0 then .error "Number must be positive!"
  else if |q - (⌊q⌋ : ℚ)| < 1 / 1000000 then miller_rabin_classic ⌊q⌋
  else .error "Number must be an integer!"

/-- Witness selection chain of `miller_rabin_minimal`, in the source order
(the `n < 3825123056546413051` branch is unreachable, coming after the larger
`n < 2**64` threshold). -/
def minimalWitnesses (n : Nat) : List Nat :=
  if n < 341531 then [9345883071009581737]
  else if n < 1050535501 then [336781006125, 9639812373923155]
  else if n < 350269456337 then
    [4230279247111683200, 14694767155120705706, 16641139526367750375]
  else if n < 55245642489451 then
    [2, 141889084524735, 1199124725622454117, 11096072698276303650]
  else if n < 7999252175582851 then
    [2, 4130806001517, 149795463772692060, 186635894390467037, 3967304179347715805]
  else if n < 585226005592931977 then
    [2, 123635709730000, 9233062284813009, 43835965440333360, 761179012939631437,
      1263739024124850375]
  else if n < 18446744073709551616 then
    [2, 325, 9375, 28178, 450775, 9780504, 1795265022]
  else if n < 3825123056546413051 then primes100.take 9
  else if n < 318665857834031151167461 then primes100.take 12
  else if n < 3317044064679887385961981 then primes100.take 13
  else primes100

/-- Embedding of `miller_rabin_minimal(n)` for integer input. -/
def miller_rabin_minimal (n : Int) : Except String Bool :=
  if n < 0 then .error "Number must be positive!"
  else
    let m := n.toNat
    if m = 0 ∨ m = 1 then .ok false
    else if m ∈ primes100 then .ok true
    else if primes100.any (fun p => m % p = 0) then .ok false
    else
      let dr := decompose (m - 1) 1
      .ok ((minimalWitnesses m).all (fun a => maybe_prime m dr.1 dr.2 a))

/-- Rows of the deterministic witness table in section 6 of the
specification, as (magnitude ceiling, witness list) in the order listed
there. Modelled from the spec, for comparison with the selection logic of the
code. -/
def specTableRows : List (Nat × List Nat) :=
  [(2047, [2]),
   (1373653, [2, 3]),
   (9080191, [31, 73]),
   (25326001, [2, 3, 5]),
   (3215031751, [2, 3, 5, 7]),
   (4759123141, [2, 7, 61]),
   (1122004669633, [2, 13, 23, 1662803]),
   (2152302898747, [2, 3, 5, 7, 11]),
   (3474749660383, [2, 3, 5, 7, 11, 13]),
   (341550071728321, [2, 3, 5, 7, 11, 13, 17]),
   (3825123056546413051, [2, 3, 5, 7, 11, 13, 17, 19, 23]),
   (318665857834031151167461, [2, 3, 5, 7, 11, 13, 17, 19, 23, 29, 31, 37]),
   (3317044064679887385961981, [2, 3, 5, 7, 11, 13, 17, 19, 23, 29, 31, 37, 41])]

/-- Ordered-table lookup: the first row whose ceiling exceeds `n`. -/
def lookupCeil (n : Nat) : List (Nat × List Nat) → Option (List Nat)
  | [] => none
  | row :: rest => if n < row.1 then some row.2 else lookupCeil n rest

/-- Lookup modelled from the spec: the witness list paired with the smallest
tabulated ceiling exceeding `n` (`none` at or beyond the largest ceiling;
the rows are in ascending ceiling order, so the first hit is the smallest). -/
def specWitnessTable (n : Nat) : Option (List Nat) := lookupCeil n specTableRows

/-! ## prime_factors -/

/-- Dict update `factors[p] += 1`, with `factors[p] = 1` on `KeyError`; the
Python dict is modeled as an association list in insertion order (its keys
are unique, which the recursion preserves). -/
def bump (p : Nat) : List (Nat × Nat) → List (Nat × Nat)
  | [] => [(p, 1)]
  | pe :: t => if pe.1 = p then (pe.1, pe.2 + 1) :: t else pe :: bump p t

/-- Dict assignment `factors[n] = 1` from the `n == temp` branch. -/
def setOne (p : Nat) : List (Nat × Nat) → List (Nat × Nat)
  | [] => [(p, 1)]
  | pe :: t => if pe.1 = p then (pe.1, 1) :: t else pe :: setOne p t

/-- Division loop `while n % p == 0: n //= p; factors[p] += 1` of
`prime_factors`, with explicit fuel (structural recursion; `fuel = n`
suffices since `n` shrinks by a factor `p ≥ 2` each pass). The `0 < n` and
`2 ≤ p` guards exclude only states at which the Python loop would not
terminate; no caller reaches them. -/
def divLoopAux (p : Nat) : Nat → Nat → List (Nat × Nat) → Nat × List (Nat × Nat)
  | 0, n, l => (n, l)
  | fuel + 1, n, l =>
    if 2 ≤ p ∧ 0 < n ∧ n % p = 0 then divLoopAux p fuel (n / p) (bump p l) else (n, l)

/-- Division loop entry point. -/
def divLoop (p n : Nat) (l : List (Nat × Nat)) : Nat × List (Nat × Nat) :=
  divLoopAux p n n l

/-- Loop `for p in range(3, int(sqrt(n)) + 1, 2): while n % p == 0: ...` of
`prime_factors` (the range is `pList` of the `n` after 2-removal). -/
def forLoop (ps : List Nat) (n : Nat) (l : List (Nat × Nat)) : Nat × List (Nat × Nat) :=
  ps.foldl (fun st q => divLoop q st.1 st.2) (n, l)

/-- Outer `while n > 1` loop of `prime_factors`, with explicit fuel
(structural recursion; `fuel = n` suffices: an iteration either ends via the
`n == temp` branch or strictly decreases `n`). -/
def factorLoopAux : Nat → Nat → List (Nat × Nat) → List (Nat × Nat)
  | 0, _, l => l
  | fuel + 1, n, l =>
    if 1 < n then
      if (forLoop (pList (divLoop 2 n l).1) (divLoop 2 n l).1 (divLoop 2 n l).2).1 = n then
        setOne n (forLoop (pList (divLoop 2 n l).1) (divLoop 2 n l).1 (divLoop 2 n l).2).2
      else
        factorLoopAux fuel
          (forLoop (pList (divLoop 2 n l).1) (divLoop 2 n l).1 (divLoop 2 n l).2).1
          (forLoop (pList (divLoop 2 n l).1) (divLoop 2 n l).1 (divLoop 2 n l).2).2
    else l

/-- Whole factorization loop of `prime_factors`, starting from the empty
dict. -/
def factorLoop (n : Nat) (l : List (Nat × Nat)) : List (Nat × Nat) := factorLoopAux n n l

/-- Embedding of `prime_factors(n)` for integer input, including its
validation. -/
def prime_factors (n : Int) : Except String (List (Nat × Nat)) :=
  if n < 0 then .error "Number must be positive!"
  else .ok (factorLoop n.toNat [])

/-- Product of `key ^ multiplicity` over all entries of the factor dict. -/
def prodFactors (l : List (Nat × Nat)) : Nat :=
  l.foldr (fun pe acc => pe.1 ^ pe.2 * acc) 1

end PrimeFunctions

namespace PrimeFunctions

/-! ## Basic facts about the helpers -/

theorem isqrtAux_eq (n : Nat) : ∀ fuel : Nat, Nat.sqrt n < fuel → isqrtAux n fuel = Nat.sqrt n := by
  intro fuel
  induction fuel with
  | zero => intro h; omega
  | succ k ih =>
    intro h
    unfold isqrtAux
    by_cases hk : k * k ≤ n
    · have h1 : k ≤ Nat.sqrt n := Nat.le_sqrt.mpr hk
      have := Nat.lt_succ_iff.mp h
      simp [hk]
      omega
    · have h2 : Nat.sqrt n < k := Nat.sqrt_lt.mpr (by omega)
      simp [hk]
      exact ih h2

/-- Justification of the integer-square-root model: the scan agrees with
`Nat.sqrt` everywhere. -/
theorem isqrt_eq_sqrt (n : Nat) : isqrt n = Nat.sqrt n :=
  isqrtAux_eq n (n + 1) (Nat.lt_succ_of_le (Nat.sqrt_le_self n))

theorem powModAux_eq (n : Nat) : ∀ fuel a d : Nat, d ≤ fuel → powModAux n fuel a d = a ^ d % n := by
  intro fuel
  induction fuel with
  | zero =>
    intro a d h
    have hd : d = 0 := by omega
    subst hd
    simp [powModAux]
  | succ k ih =>
    intro a d h
    unfold powModAux
    by_cases hd : d = 0
    · subst hd; simp
    · simp only [hd, if_false]
      have hle : d / 2 ≤ k := by omega
      rw [ih (a * a % n) (d / 2) hle, ← Nat.pow_mod]
      have hsq : (a * a) ^ (d / 2) = a ^ (2 * (d / 2)) := by
        rw [← Nat.pow_two, ← Nat.pow_mul]
      by_cases ho : d % 2 = 1
      · simp only [ho, if_true]
        have h2 : d = 2 * (d / 2) + 1 := by omega
        rw [hsq]
        conv_rhs => rw [h2]
        rw [Nat.pow_succ, Nat.mul_mod (a ^ (2 * (d / 2))) a n,
          Nat.mul_mod (a ^ (2 * (d / 2)) % n) a n, Nat.mod_mod_of_dvd _ (dvd_refl n)]
      · simp only [ho, if_false]
        have h2 : 2 * (d / 2) = d := by omega
        rw [hsq, h2]

/-- Justification of the modular-exponentiation model: `powMod a d n`
computes `a ^ d % n`, the value of Python `pow(a, d, n)`. -/
theorem powMod_eq (a d n : Nat) : powMod a d n = a ^ d % n :=
  powModAux_eq n d a d (Nat.le_refl d)

theorem decomposeAux_spec : ∀ (fuel d r : Nat), 0 < d → d ≤ fuel →
    (decomposeAux fuel d r).1 % 2 = 1 ∧ r ≤ (decomposeAux fuel d r).2 ∧
      (decomposeAux fuel d r).1 * 2 ^ ((decomposeAux fuel d r).2 - r) = d ∧
      (d % 2 = 0 → r + 1 ≤ (decomposeAux fuel d r).2) := by
  intro fuel
  induction fuel with
  | zero => intro d r hd hf; omega
  | succ k ih =>
    intro d r hd hf
    unfold decomposeAux
    by_cases he : d % 2 = 0
    · have hcond : 0 < d ∧ d % 2 = 0 := ⟨hd, he⟩
      simp only [hcond, and_self, if_true]
      have hd2 : 0 < d / 2 := by omega
      have hf2 : d / 2 ≤ k := by omega
      obtain ⟨h1, h2, h3, _⟩ := ih (d / 2) (r + 1) hd2 hf2
      refine ⟨h1, by omega, ?_, fun _ => by omega⟩
      have hsub : (decomposeAux k (d / 2) (r + 1)).2 - r = ((decomposeAux k (d / 2) (r + 1)).2 - (r + 1)) + 1 := by omega
      rw [hsub, pow_succ, ← Nat.mul_assoc, h3]
      omega
    · have hcond : ¬(0 < d ∧ d % 2 = 0) := by omega
      simp only [hcond, if_false]
      exact ⟨by omega, Nat.le_refl r, by simp, fun h => absurd h he⟩

/-- Characterization of the decomposition loop as called by the engines:
for odd `n ≥ 3`, it ends with `d` odd, `r ≥ 2`, and `n - 1 = d * 2 ^ (r - 1)`. -/
theorem decompose_spec (n : Nat) (h3 : 3 ≤ n) (hodd : n % 2 = 1) :
    (decompose (n - 1) 1).1 % 2 = 1 ∧ 2 ≤ (decompose (n - 1) 1).2 ∧
      (decompose (n - 1) 1).1 * 2 ^ ((decompose (n - 1) 1).2 - 1) = n - 1 := by
  have hd : 0 < n - 1 := by omega
  have he : (n - 1) % 2 = 0 := by omega
  obtain ⟨h1, _, h2, h4⟩ := decomposeAux_spec (n - 1) (n - 1) 1 hd (Nat.le_refl _)
  exact ⟨h1, h4 he, h2⟩

/-! ## C3: the decomposition loop -/

/-- Claim C3 as stated is false at `n = 5`: the loop ends with `d = 1`,
`r = 3`, and `1 * 2 ^ 3 = 8 ≠ 4 = n - 1` (the exponent is `r - 1`, not `r`). -/
theorem c3_counterexample :
    ¬ ((decompose (5 - 1) 1).1 * 2 ^ (decompose (5 - 1) 1).2 = 5 - 1) := by decide

/-- Claim C3, amended: for every odd `n ≥ 3`, the decomposition loop
terminates with `d` odd, `r ≥ 2` (in particular `r ≥ 1`), and
`n - 1 = d * 2 ^ (r - 1)` (the code starts `r` at 1, so `r` overcounts the
2-adic valuation of `n - 1` by one). -/
theorem c3_theorem (n : Nat) (h3 : 3 ≤ n) (hodd : n % 2 = 1) :
    (decompose (n - 1) 1).1 % 2 = 1 ∧ 2 ≤ (decompose (n - 1) 1).2 ∧
      n - 1 = (decompose (n - 1) 1).1 * 2 ^ ((decompose (n - 1) 1).2 - 1) := by
  obtain ⟨h1, h2, h4⟩ := decompose_spec n h3 hodd
  exact ⟨h1, h2, h4.symm⟩

/-- Witness for `c3_theorem` at `n = 5` (where `decompose 4 1 = (1, 3)`). -/
theorem c3_witness :
    (3 ≤ 5 ∧ 5 % 2 = 1) ∧ decompose (5 - 1) 1 = (1, 3) ∧
      ((decompose (5 - 1) 1).1 % 2 = 1 ∧ 2 ≤ (decompose (5 - 1) 1).2 ∧
        5 - 1 = (decompose (5 - 1) 1).1 * 2 ^ ((decompose (5 - 1) 1).2 - 1)) :=
  ⟨by decide, by decide, c3_theorem 5 (by decide) (by decide)⟩

/-! ## C6: negative input and n = 1 -/

/-- Claim C6: negative integer input makes both engines fail with their
validation errors (raised before any arithmetic: both models produce the
error in their first branch), and `n = 1` returns `false` (the branch taken
before the decomposition and witness loops in both functions). -/
theorem c6_theorem (n : Int) (rand : List Nat) (hneg : n < 0) :
    (miller_rabin n rand = .error "Number must be greater than zero!" ∧
      miller_rabin_classic n = .error "Number must be positive!") ∧
      (miller_rabin 1 [] = .ok false ∧ miller_rabin_classic 1 = .ok false) := by
  constructor
  · constructor
    · unfold miller_rabin
      rw [if_pos (by omega)]
    · unfold miller_rabin_classic
      rw [if_pos hneg]
  · constructor <;> decide

/-- Witness for `c6_theorem` at `n = -7`. -/
theorem c6_witness :
    ((-7 : Int) < 0) ∧
      ((miller_rabin (-7) [] = .error "Number must be greater than zero!" ∧
        miller_rabin_classic (-7) = .error "Number must be positive!") ∧
        (miller_rabin 1 [] = .ok false ∧ miller_rabin_classic 1 = .ok false)) :=
  ⟨by decide, c6_theorem (-7) [] (by decide)⟩

/-! ## C8: totality on validated inputs -/

/-- Claim C8: every input that passes validation (every positive `n`)
produces a boolean result: the decomposition loop terminates (see
`decompose_spec`) and each single-witness loop runs at most `r - 1` squarings
(`maybe_prime` calls `squareLoop` with fuel exactly `r - 1`), so the whole
test terminates with `ok`. -/
theorem c8_theorem (n : Int) (rand : List Nat) (hpos : 1 ≤ n) :
    ∃ b : Bool, miller_rabin n rand = .ok b := by
  unfold miller_rabin
  rw [if_neg (by omega)]
  by_cases h1 : n.toNat = 1
  · simp only [h1, if_true]
    exact ⟨false, rfl⟩
  · simp only [h1, if_false]
    by_cases h2 : n.toNat ∈ knownPrimes8
    · simp only [h2, if_true]
      exact ⟨true, rfl⟩
    · simp only [h2, if_false]
      by_cases h3 : knownPrimes8.any (fun p => n.toNat % p = 0)
      · simp only [h3, if_true]
        exact ⟨false, rfl⟩
      · simp only [h3, if_false]
        exact ⟨_, rfl⟩

/-- Witness for `c8_theorem` at `n = 5` with an empty random sample. -/
theorem c8_witness : (1 : Int) ≤ 5 ∧ ∃ b : Bool, miller_rabin 5 [] = .ok b :=
  ⟨by decide, c8_theorem 5 [] (by decide)⟩

/-! ## C10: zero input for the two prime_functions variants -/

/-- Claim C10: `miller_rabin_classic(0)` and `miller_rabin_minimal(0)` both
return `False` (zero is folded into the `n in {0, 1}` early return, not
rejected), resolving the zero-input open question for these two variants. -/
theorem c10_theorem :
    miller_rabin_classic 0 = .ok false ∧ miller_rabin_minimal 0 = .ok false := by
  decide

/-! ## C4: float-input validation -/

/-- Claim C4 as stated is false at the float `4.9999999`: its distance from
the nearest integer `5` is `10⁻⁷ < 10⁻⁶`, yet the code truncates with
`int(n)` to `4`, measures the distance `0.9999999` from that, and raises,
instead of returning the result for `5` (which is `ok true`). -/
theorem c4_counterexample :
    |(49999999 / 10000000 : ℚ) - 5| < 1 / 1000000 ∧
      miller_rabin_classic_float (49999999 / 10000000) = .error "Number must be an integer!" ∧
      miller_rabin_classic 5 = .ok true := by
  refine ⟨by rw [abs_sub_lt_iff]; constructor <;> norm_num, ?_, by decide⟩
  unfold miller_rabin_classic_float
  have h2 : (⌊(49999999 / 10000000 : ℚ)⌋ : ℚ) = 4 := by norm_num
  rw [if_neg (by norm_num), h2, if_neg (by rw [not_lt, le_abs]; left; norm_num)]

/-- Claim C4, amended: a nonnegative float input is accepted exactly when its
distance above its floor (the value `int(n)` truncates to) is below `1e-6`,
in which case the result is that of the floor; otherwise — including floats
within `1e-6` below an integer — the call fails with the
"must be an integer" error. (Negative floats are stopped earlier by the
"must be positive" check; the same validation code appears in the other
validated functions of `prime_functions.py`.) -/
theorem c4_theorem (q : ℚ) (h0 : 0 ≤ q) :
    (q - ⌊q⌋ < 1 / 1000000 →
        miller_rabin_classic_float q = miller_rabin_classic ⌊q⌋) ∧
      (1 / 1000000 ≤ q - ⌊q⌋ →
        miller_rabin_classic_float q = .error "Number must be an integer!") := by
  have hfl : ((⌊q⌋ : ℤ) : ℚ) ≤ q := Int.floor_le q
  have habs : |q - ((⌊q⌋ : ℤ) : ℚ)| = q - ⌊q⌋ := abs_of_nonneg (by linarith)
  unfold miller_rabin_classic_float
  rw [if_neg (not_lt.mpr h0), habs]
  constructor
  · intro h
    rw [if_pos h]
  · intro h
    rw [if_neg (not_lt.mpr h)]

/-- Witness for `c4_theorem` at the float `7 + 1e-10`, whose floor is `7`:
accepted, and equal to the integer result `ok true`. -/
theorem c4_witness :
    (0 : ℚ) ≤ 70000000001 / 10000000000 ∧
      (70000000001 / 10000000000 : ℚ) - ⌊(70000000001 / 10000000000 : ℚ)⌋ < 1 / 1000000 ∧
      miller_rabin_classic_float (70000000001 / 10000000000) =
        miller_rabin_classic ⌊(70000000001 / 10000000000 : ℚ)⌋ ∧
      ⌊(70000000001 / 10000000000 : ℚ)⌋ = 7 ∧ miller_rabin_classic 7 = .ok true :=
  ⟨by norm_num, by norm_num, (c4_theorem _ (by norm_num)).1 (by norm_num), by norm_num,
    by decide⟩

/-! ## C2: witness selection against the section-6 table -/

/-- Claim C2 as stated is false at `n = 1373653`: the input is in the
deterministic range and reaches witness selection (it is not in the
small-prime list and has no small prime factor), the smallest tabulated
ceiling exceeding it is `9080191` with witnesses `{31, 73}`, but
`miller_rabin_classic` selects `primes[:3] = [2, 3, 5]`. -/
theorem c2_counterexample :
    (1373653 < 3317044064679887385961981 ∧ 1373653 ∉ primes100 ∧
        ∀ p ∈ primes100, 1373653 % p ≠ 0) ∧
      specWitnessTable 1373653 = some [31, 73] ∧
      classicWitnesses 1373653 = [2, 3, 5] := by decide

/-- Claim C2, amended: the exact agreement with the section-6 table holds for
`miller_rabin` in `miller_rabin.py` (for every `n` below the largest
ceiling, its selected witness list is the one paired with the smallest
tabulated ceiling exceeding `n`); `miller_rabin_classic` instead uses
prefixes of the first 25 primes with its own thresholds, which differ from
the table exactly on `[1373653, 9080191)` and `[3215031751, 1122004669633)`. -/
theorem c2_theorem (n : Nat) (_h : n < 3317044064679887385961981) :
    witnessTable n = specWitnessTable n := by
  unfold witnessTable specWitnessTable specTableRows
  simp only [lookupCeil]

/-- Witness for `c2_theorem` at `n = 1000000` (selection `[2, 3]`). -/
theorem c2_witness :
    (1000000 < 3317044064679887385961981) ∧
      witnessTable 1000000 = some [2, 3] ∧
      witnessTable 1000000 = specWitnessTable 1000000 :=
  ⟨by decide, by decide, c2_theorem 1000000 (by decide)⟩

/-! ## C5: correctness of the two sieves -/

/-- Cell `i` after `clearCount`: cleared exactly when it is one of the `c`
assigned positions and in range. -/
theorem clearCount_getD (step : Nat) :
    ∀ (c : Nat) (s : List Bool) (start i : Nat),
      (clearCount s start step c).getD i false =
        if (∃ j, j < c ∧ i = start + j * step) ∧ i < s.length then false
        else s.getD i false := by
  intro c
  induction c with
  | zero =>
    intro s start i
    rw [if_neg]
    · rfl
    rintro ⟨⟨j, hj, _⟩, _⟩
    omega
  | succ c ih =>
    intro s start i
    show (clearCount (s.set start false) (start + step) step c).getD i false = _
    rw [ih, List.length_set]
    by_cases hlen : i < s.length
    · by_cases his : i = start
      · subst his
        have hset : (s.set i false).getD i false = false := by
          rw [List.getD_eq_getElem?_getD, List.getElem?_set_self (by omega), Option.getD_some]
        have hcond : (∃ j, j < c + 1 ∧ i = i + j * step) ∧ i < s.length :=
          ⟨⟨0, Nat.succ_pos c, by simp only [Nat.zero_mul, Nat.add_zero]⟩, hlen⟩
        rw [if_pos hcond]
        split
        · rfl
        · exact hset
      · have hset : (s.set start false).getD i false = s.getD i false := by
          rw [List.getD_eq_getElem?_getD, List.getD_eq_getElem?_getD,
            List.getElem?_set_ne (fun h => his h.symm)]
        rw [hset]
        refine if_congr ⟨?_, ?_⟩ rfl rfl
        · rintro ⟨⟨j, hj, hij⟩, _⟩
          refine ⟨⟨j + 1, by omega, ?_⟩, hlen⟩
          rw [Nat.succ_mul]
          omega
        · rintro ⟨⟨j, hj, hij⟩, _⟩
          cases j with
          | zero => exact absurd (by simpa using hij) his
          | succ j =>
            refine ⟨⟨j, by omega, ?_⟩, hlen⟩
            rw [Nat.succ_mul] at hij
            omega
    · rw [if_neg (fun hc => hlen hc.2), if_neg (fun hc => hlen hc.2),
        List.getD_eq_default, List.getD_eq_default]
      · omega
      · rw [List.length_set]; omega

theorem clearCount_length (step : Nat) :
    ∀ (c : Nat) (s : List Bool) (start : Nat),
      (clearCount s start step c).length = s.length := by
  intro c
  induction c with
  | zero => intro s start; rfl
  | succ c ih =>
    intro s start
    show (clearCount (s.set start false) (start + step) step c).length = _
    rw [ih, List.length_set]

theorem clearAll_length (s : List Bool) (start step : Nat) :
    (clearAll s start step).length = s.length := by
  unfold clearAll
  rw [List.length_zipWith, List.length_range]
  omega

/-- Cell `i` after the numpy slice assignment `clearAll`. -/
theorem clearAll_getD (s : List Bool) (start step i : Nat) :
    (clearAll s start step).getD i false =
      if (start ≤ i ∧ (i - start) % step = 0) ∧ i < s.length then false
      else s.getD i false := by
  rcases Nat.lt_or_ge i s.length with h | h
  · have hz : (clearAll s start step)[i]? =
        some (if start ≤ i ∧ (i - start) % step = 0 then false else s[i]) := by
      unfold clearAll
      rw [List.getElem?_zipWith, List.getElem?_range h, List.getElem?_eq_getElem h]
    rw [List.getD_eq_getElem?_getD, hz]
    by_cases hc : start ≤ i ∧ (i - start) % step = 0
    · rw [if_pos hc, if_pos ⟨hc, h⟩]
      rfl
    · rw [if_neg hc, if_neg (fun hx => hc hx.1), List.getD_eq_getElem?_getD,
        List.getElem?_eq_getElem h]
  · have hz : (clearAll s start step)[i]? = none :=
      List.getElem?_eq_none (by rw [clearAll_length]; exact h)
    rw [List.getD_eq_getElem?_getD, hz,
      if_neg (fun hc => absurd hc.2 (Nat.not_lt.mpr h)), List.getD_eq_default _ _ h]
    rfl

/-- Arithmetic core of the sieve: cell `i` (representing `2*i + 1`) lies on
the slice `[p*p//2 :: p]` exactly when `p` divides `2*i + 1` and `p*p ≤ 2*i + 1`,
for odd `p ≥ 3`. -/
theorem slice_index_iff (p i : Nat) (hp2 : p % 2 = 1) (hp3 : 3 ≤ p) :
    (p * p / 2 ≤ i ∧ (i - p * p / 2) % p = 0) ↔ (p ∣ (2 * i + 1) ∧ p * p ≤ 2 * i + 1) := by
  have hA : p * p % 2 = 1 := by
    rw [Nat.mul_mod, hp2]
  constructor
  · rintro ⟨hle, hmod⟩
    obtain ⟨j, hj⟩ := Nat.dvd_of_mod_eq_zero hmod
    have hc : p * j = j * p := Nat.mul_comm p j
    have hexp : p * (p + 2 * j) = p * p + 2 * (j * p) := by ring
    exact ⟨⟨p + 2 * j, by omega⟩, by omega⟩
  · rintro ⟨⟨t, ht⟩, hle⟩
    have ht2 : t % 2 = 1 := by
      have hm := Nat.mul_mod p t 2
      rw [hp2] at hm
      omega
    have hpt : p ≤ t := by
      rw [ht] at hle
      exact Nat.le_of_mul_le_mul_left hle (by omega)
    obtain ⟨j, hj⟩ : ∃ j, t = p + 2 * j := ⟨(t - p) / 2, by omega⟩
    have hexp : p * (p + 2 * j) = p * p + 2 * (j * p) := by ring
    rw [hj] at ht
    constructor
    · omega
    · have hi : i - p * p / 2 = j * p := by omega
      rw [hi]
      exact Nat.mul_mod_left j p

/-- Correctness of the Python slice-assignment count
`(N - p*p - 1) // (2*p) + 1`: position `j` of the slice is in range exactly
when `j` is below the count, so the assignment never goes out of range. -/
theorem count_iff (N p j : Nat) (hp2 : p % 2 = 1) (hp3 : 3 ≤ p) :
    j < (sliceCount N p).toNat ↔ p * p / 2 + j * p < N / 2 := by
  have hA : p * p % 2 = 1 := by
    rw [Nat.mul_mod, hp2]
  have h2p : (0 : ℤ) < 2 * (p : ℤ) := by positivity
  unfold sliceCount
  rw [Int.fdiv_eq_ediv _ (Int.le_of_lt h2p), Int.lt_toNat, Int.lt_add_one_iff,
    Int.le_ediv_iff_mul_le h2p]
  have hcast : (j : ℤ) * (2 * (p : ℤ)) = 2 * ((j * p : ℕ) : ℤ) := by
    push_cast
    ring
  rw [hcast]
  omega

/-- Invariant predicate of the sieve: some odd `q` with `3 ≤ q < c`,
`q ∣ m` and `q * q ≤ m` has cleared the cell of the odd number `m`. -/
def cleared (c m : Nat) : Prop :=
  ∃ q, q % 2 = 1 ∧ 3 ≤ q ∧ q < c ∧ q ∣ m ∧ q * q ≤ m

theorem minFac_odd_facts (p : Nat) (hp2 : p % 2 = 1) (hp1 : p ≠ 1) :
    p.minFac % 2 = 1 ∧ 3 ≤ p.minFac := by
  have hprime := Nat.minFac_prime hp1
  have h2 := hprime.two_le
  have hnd : ¬ (2 ∣ p) := by
    rintro ⟨t, ht⟩
    omega
  have hne : p.minFac ≠ 2 := fun h => hnd (h ▸ Nat.minFac_dvd p)
  have hodd := Nat.odd_iff.mp (hprime.odd_of_ne_two hne)
  exact ⟨hodd, by omega⟩

/-- After all odd values below `c` have been processed, a cell is cleared
exactly when its odd number is composite — provided `c` exceeds the square
root of the number. -/
theorem cleared_iff_not_prime (c m : Nat) (hm2 : m % 2 = 1) (hm3 : 3 ≤ m)
    (hc : Nat.sqrt m < c) : cleared c m ↔ ¬ m.Prime := by
  constructor
  · rintro ⟨q, hq2, hq3, hqlt, hqdvd, hqsq⟩ hp
    rcases hp.eq_one_or_self_of_dvd q hqdvd with h1 | h1
    · omega
    · subst h1
      have h2 : q * 3 ≤ q * q := Nat.mul_le_mul_left q (by omega)
      omega
  · intro hnp
    obtain ⟨hmf2, hmf3⟩ := minFac_odd_facts m hm2 (by omega)
    have hsq : m.minFac * m.minFac ≤ m := by
      have := Nat.minFac_sq_le_self (by omega : 0 < m) hnp
      rwa [Nat.pow_two] at this
    refine ⟨m.minFac, hmf2, hmf3, ?_, Nat.minFac_dvd m, hsq⟩
    have : m.minFac ≤ Nat.sqrt m := Nat.le_sqrt.mpr hsq
    omega

/-- Processing the next odd value `p` extends the cleared-set exactly by the
cells of multiples of a prime `p` at or beyond `p * p`. -/
theorem cleared_succ (p m : Nat) (hp2 : p % 2 = 1) (hp3 : 3 ≤ p) :
    cleared (p + 2) m ↔ (cleared p m ∨ (p.Prime ∧ p ∣ m ∧ p * p ≤ m)) := by
  constructor
  · rintro ⟨q, hq2, hq3, hqlt, hqdvd, hqsq⟩
    rcases Nat.lt_or_ge q p with h | h
    · exact Or.inl ⟨q, hq2, hq3, h, hqdvd, hqsq⟩
    · have hqp : q = p := by omega
      subst hqp
      by_cases hqpr : q.Prime
      · exact Or.inr ⟨hqpr, hqdvd, hqsq⟩
      · left
        obtain ⟨hmf2, hmf3⟩ := minFac_odd_facts q hq2 (by omega)
        have hsq : q.minFac * q.minFac ≤ q := by
          have := Nat.minFac_sq_le_self (by omega : 0 < q) hqpr
          rwa [Nat.pow_two] at this
        have hlt : q.minFac < q := by
          have h1 : q.minFac * 3 ≤ q.minFac * q.minFac := Nat.mul_le_mul_left _ (by omega)
          omega
        have hqm : q ≤ m := by
          have h1 : q * 1 ≤ q * q := Nat.mul_le_mul_left q (by omega)
          omega
        exact ⟨q.minFac, hmf2, hmf3, by omega, (Nat.minFac_dvd q).trans hqdvd, by omega⟩
  · rintro (⟨q, hq2, hq3, hqlt, hqdvd, hqsq⟩ | ⟨hpr, hdvd, hsq⟩)
    · exact ⟨q, hq2, hq3, by omega, hqdvd, hqsq⟩
    · exact ⟨p, hp2, hp3, by omega, hdvd, hsq⟩

theorem sieveStepNN_length (N : Nat) (s : List Bool) (p : Nat) :
    (sieveStepNN N s p).length = s.length := by
  unfold sieveStepNN
  split
  · rw [clearCount_length]
  · rfl

theorem sieveStepNP_length (N : Nat) (s : List Bool) (p : Nat) :
    (sieveStepNP N s p).length = s.length := by
  unfold sieveStepNP
  split
  · rw [clearAll_length]
  · rfl

/-- One loop body of `get_primes_without_numpy`, at the level of cell values:
cell `i` survives exactly when it was set and is not a `p`-multiple at or
beyond `p * p` cleared under a set guard cell. -/
theorem sieveStepNN_getD (N : Nat) (s : List Bool) (p i : Nat)
    (hp2 : p % 2 = 1) (hp3 : 3 ≤ p) (hlen : s.length = N / 2) (hi : i < N / 2) :
    ((sieveStepNN N s p).getD i false = true ↔
      (s.getD i false = true ∧
        ¬(s.getD (p / 2) false = true ∧ p ∣ (2 * i + 1) ∧ p * p ≤ 2 * i + 1))) := by
  unfold sieveStepNN
  by_cases hg : s.getD (p / 2) false = true
  · rw [if_pos hg, clearCount_getD]
    have hiff : ((∃ j, j < (sliceCount N p).toNat ∧ i = p * p / 2 + j * p) ∧ i < s.length) ↔
        (p ∣ (2 * i + 1) ∧ p * p ≤ 2 * i + 1) := by
      constructor
      · rintro ⟨⟨j, hj, rfl⟩, _⟩
        apply (slice_index_iff p _ hp2 hp3).mp
        refine ⟨by omega, ?_⟩
        have he : p * p / 2 + j * p - p * p / 2 = j * p := by omega
        rw [he]
        exact Nat.mul_mod_left j p
      · intro hpm
        obtain ⟨hle, hmod⟩ := (slice_index_iff p i hp2 hp3).mpr hpm
        obtain ⟨j, hj⟩ := Nat.dvd_of_mod_eq_zero hmod
        have hc : p * j = j * p := Nat.mul_comm p j
        refine ⟨⟨j, ?_, by omega⟩, by omega⟩
        rw [count_iff N p j hp2 hp3]
        omega
    rw [if_congr hiff rfl rfl]
    by_cases hpm : p ∣ (2 * i + 1) ∧ p * p ≤ 2 * i + 1
    · rw [if_pos hpm]
      exact ⟨fun h => Bool.noConfusion h, fun hx => (hx.2 ⟨hg, hpm⟩).elim⟩
    · rw [if_neg hpm]
      exact ⟨fun h => ⟨h, fun hx => hpm ⟨hx.2.1, hx.2.2⟩⟩, fun hx => hx.1⟩
  · rw [if_neg hg]
    exact ⟨fun h => ⟨h, fun hx => hg hx.1⟩, fun hx => hx.1⟩

/-- One loop body of `get_primes`, at the level of cell values (same
characterization as `sieveStepNN_getD`). -/
theorem sieveStepNP_getD (N : Nat) (s : List Bool) (p i : Nat)
    (hp2 : p % 2 = 1) (hp3 : 3 ≤ p) (hlen : s.length = N / 2) (hi : i < N / 2) :
    ((sieveStepNP N s p).getD i false = true ↔
      (s.getD i false = true ∧
        ¬(s.getD (p / 2) false = true ∧ p ∣ (2 * i + 1) ∧ p * p ≤ 2 * i + 1))) := by
  unfold sieveStepNP
  by_cases hg : s.getD (p / 2) false = true
  · rw [if_pos hg, clearAll_getD]
    have hiff : ((p * p / 2 ≤ i ∧ (i - p * p / 2) % p = 0) ∧ i < s.length) ↔
        (p ∣ (2 * i + 1) ∧ p * p ≤ 2 * i + 1) :=
      ⟨fun hx => (slice_index_iff p i hp2 hp3).mp hx.1,
       fun hpm => ⟨(slice_index_iff p i hp2 hp3).mpr hpm, by omega⟩⟩
    rw [if_congr hiff rfl rfl]
    by_cases hpm : p ∣ (2 * i + 1) ∧ p * p ≤ 2 * i + 1
    · rw [if_pos hpm]
      exact ⟨fun h => Bool.noConfusion h, fun hx => (hx.2 ⟨hg, hpm⟩).elim⟩
    · rw [if_neg hpm]
      exact ⟨fun h => ⟨h, fun hx => hpm ⟨hx.2.1, hx.2.2⟩⟩, fun hx => hx.1⟩
  · rw [if_neg hg]
    exact ⟨fun h => ⟨h, fun hx => hg hx.1⟩, fun hx => hx.1⟩

/-- Main sieve invariant, generic in the loop body: after processing the odd
values `3, 5, ..., 3 + 2*(k-1)`, cell `i` is set exactly when no processed
value has cleared the odd number `2*i + 1`. -/
theorem sieve_fold_char (N : Nat) (f : List Bool → Nat → List Bool)
    (hflen : ∀ s p, (f s p).length = s.length)
    (hfchar : ∀ s p i, p % 2 = 1 → 3 ≤ p → s.length = N / 2 → i < N / 2 →
      ((f s p).getD i false = true ↔
        (s.getD i false = true ∧
          ¬(s.getD (p / 2) false = true ∧ p ∣ (2 * i + 1) ∧ p * p ≤ 2 * i + 1)))) :
    ∀ k, k ≤ (isqrt N - 1) / 2 →
      ((List.range' 3 k 2).foldl f (List.replicate (N / 2) true)).length = N / 2 ∧
      ∀ i, i < N / 2 →
        (((List.range' 3 k 2).foldl f (List.replicate (N / 2) true)).getD i false = true ↔
          ¬ cleared (3 + 2 * k) (2 * i + 1)) := by
  intro k
  induction k with
  | zero =>
    intro _
    rw [show (List.range' 3 0 2).foldl f (List.replicate (N / 2) true) =
      List.replicate (N / 2) true from rfl]
    refine ⟨by simp, fun i hi => ?_⟩
    constructor
    · rintro _ ⟨q, hq1, hq2, hq3, _⟩
      omega
    · intro _
      rw [List.getD_eq_getElem?_getD, List.getElem?_replicate, if_pos hi]
      rfl
  | succ k ih =>
    intro hk
    obtain ⟨ihlen, ihchar⟩ := ih (by omega)
    have hp2 : (3 + 2 * k) % 2 = 1 := by omega
    have hp3 : 3 ≤ 3 + 2 * k := by omega
    have hpsq : (3 + 2 * k) * (3 + 2 * k) ≤ N := by
      have h1 : 3 + 2 * k ≤ isqrt N := by omega
      rw [isqrt_eq_sqrt] at h1
      exact Nat.le_sqrt.mp h1
    have hpN : 3 + 2 * k + 2 ≤ N := by
      have h3 : (3 + 2 * k) * 3 ≤ (3 + 2 * k) * (3 + 2 * k) :=
        Nat.mul_le_mul_left (3 + 2 * k) hp3
      omega
    have hpidx : (3 + 2 * k) / 2 < N / 2 := by omega
    rw [List.range'_concat, List.foldl_append, List.foldl_cons, List.foldl_nil]
    refine ⟨by rw [hflen, ihlen], fun i hi => ?_⟩
    rw [hfchar _ _ _ hp2 hp3 ihlen hi, ihchar i hi, ihchar ((3 + 2 * k) / 2) hpidx]
    have hguard : 2 * ((3 + 2 * k) / 2) + 1 = 3 + 2 * k := by omega
    rw [hguard]
    have hc' : 3 + 2 * (k + 1) = (3 + 2 * k) + 2 := by omega
    rw [hc', cleared_succ (3 + 2 * k) _ hp2 hp3]
    have hcp := cleared_iff_not_prime (3 + 2 * k) (3 + 2 * k) hp2 hp3
      (by have := Nat.sqrt_lt_self (show 1 < 3 + 2 * k by omega); omega)
    rw [hcp]
    tauto

/-- Final sieve of `get_primes_without_numpy`: cell `i ≥ 1` is set exactly
when `2*i + 1` is prime. -/
theorem sieveNN_prime (N i : Nat) (h1 : 1 ≤ i) (hi : i < N / 2) :
    ((sieveNN N).getD i false = true ↔ (2 * i + 1).Prime) := by
  have hch := (sieve_fold_char N (sieveStepNN N) (sieveStepNN_length N)
    (sieveStepNN_getD N) ((isqrt N - 1) / 2) (Nat.le_refl _)).2 i hi
  rw [show sieveNN N = (List.range' 3 ((isqrt N - 1) / 2) 2).foldl (sieveStepNN N)
    (List.replicate (N / 2) true) from rfl, hch]
  have hm2 : (2 * i + 1) % 2 = 1 := by omega
  have hm3 : 3 ≤ 2 * i + 1 := by omega
  rw [cleared_iff_not_prime _ _ hm2 hm3 ?_]
  · exact not_not
  · have hmN : 2 * i + 1 ≤ N := by omega
    have h4 := Nat.sqrt_le_sqrt hmN
    rw [isqrt_eq_sqrt]
    omega

/-- Final sieve of `get_primes`: cell `i ≥ 1` is set exactly when `2*i + 1`
is prime. -/
theorem sieveNP_prime (N i : Nat) (h1 : 1 ≤ i) (hi : i < N / 2) :
    ((sieveNP N).getD i false = true ↔ (2 * i + 1).Prime) := by
  have hch := (sieve_fold_char N (sieveStepNP N) (sieveStepNP_length N)
    (sieveStepNP_getD N) ((isqrt N - 1) / 2) (Nat.le_refl _)).2 i hi
  rw [show sieveNP N = (List.range' 3 ((isqrt N - 1) / 2) 2).foldl (sieveStepNP N)
    (List.replicate (N / 2) true) from rfl, hch]
  have hm2 : (2 * i + 1) % 2 = 1 := by omega
  have hm3 : 3 ≤ 2 * i + 1 := by omega
  rw [cleared_iff_not_prime _ _ hm2 hm3 ?_]
  · exact not_not
  · have hmN : 2 * i + 1 ≤ N := by omega
    have h4 := Nat.sqrt_le_sqrt hmN
    rw [isqrt_eq_sqrt]
    omega

/-- Cell `0` of the numpy sieve (representing the number 1) is never cleared. -/
theorem sieveNP_zero (N : Nat) (h0 : 0 < N / 2) : (sieveNP N).getD 0 false = true := by
  have hch := (sieve_fold_char N (sieveStepNP N) (sieveStepNP_length N)
    (sieveStepNP_getD N) ((isqrt N - 1) / 2) (Nat.le_refl _)).2 0 h0
  rw [show sieveNP N = (List.range' 3 ((isqrt N - 1) / 2) 2).foldl (sieveStepNP N)
    (List.replicate (N / 2) true) from rfl, hch]
  rintro ⟨q, hq1, hq2, hq3, hdvd, hsq⟩
  have hq : q = 1 := Nat.dvd_one.mp (by simpa using hdvd)
  omega

/-- Assembly of the sieve output: prepending 2 to the odd primes read off a
prime-filtered index range gives exactly the ascending list of primes
below `N`. -/
theorem two_cons_eq_filter_range (N : Nat) (h3 : 3 ≤ N) :
    2 :: ((List.range' 1 (N / 2 - 1)).filter
        (fun i => decide ((2 * i + 1).Prime))).map (fun i => 2 * i + 1) =
      (List.range N).filter (fun m => decide m.Prime) := by
  have hmem : ∀ x : Nat,
      (x ∈ 2 :: ((List.range' 1 (N / 2 - 1)).filter
          (fun i => decide ((2 * i + 1).Prime))).map (fun i => 2 * i + 1)) ↔
        (x ∈ (List.range N).filter (fun m => decide m.Prime)) := by
    intro x
    simp only [List.mem_cons, List.mem_map, List.mem_filter, List.mem_range'_1,
      List.mem_range, decide_eq_true_eq]
    constructor
    · rintro (rfl | ⟨i, ⟨⟨hi1, hi2⟩, hip⟩, rfl⟩)
      · exact ⟨by omega, Nat.prime_two⟩
      · exact ⟨by omega, hip⟩
    · rintro ⟨hxN, hxp⟩
      by_cases hx2 : x = 2
      · exact Or.inl hx2
      · right
        have hodd : x % 2 = 1 := Nat.odd_iff.mp (hxp.odd_of_ne_two hx2)
        have hx3 : 3 ≤ x := by
          have := hxp.two_le
          omega
        have hx : 2 * (x / 2) + 1 = x := by omega
        exact ⟨x / 2, ⟨⟨by omega, by omega⟩, by rw [hx]; exact hxp⟩, hx⟩
  have hsorted1 : List.Pairwise (· < ·)
      (2 :: ((List.range' 1 (N / 2 - 1)).filter
        (fun i => decide ((2 * i + 1).Prime))).map (fun i => 2 * i + 1)) := by
    rw [List.pairwise_cons]
    constructor
    · intro b hb
      obtain ⟨i, hi, rfl⟩ := List.mem_map.mp hb
      have := (List.mem_range'_1.mp (List.mem_filter.mp hi).1).1
      omega
    · rw [List.pairwise_map]
      have h0 : List.Pairwise (· < ·) (List.range' 1 (N / 2 - 1)) :=
        List.pairwise_lt_range' 1 (N / 2 - 1)
      exact (h0.sublist (List.filter_sublist _)).imp (fun h => by omega)
  have hsorted2 : List.Pairwise (· < ·) ((List.range N).filter (fun m => decide m.Prime)) :=
    (List.pairwise_lt_range N).sublist (List.filter_sublist _)
  have hnd1 := hsorted1.imp (fun h => Nat.ne_of_lt h)
  have hnd2 := hsorted2.imp (fun h => Nat.ne_of_lt h)
  refine List.eq_of_perm_of_sorted
    (List.perm_of_nodup_nodup_toFinset_eq hnd1 hnd2 ?_) hsorted1 hsorted2
  ext x
  simp only [List.mem_toFinset]
  exact hmem x

/-- The result list of `get_primes_without_numpy` is exactly the ascending
list of primes below `N`. -/
theorem primesListNN_eq (N : Nat) (h3 : 3 ≤ N) :
    primesListNN N = (List.range N).filter (fun m => decide m.Prime) := by
  unfold primesListNN
  have hcg : (List.range' 1 (N / 2 - 1)).filter (fun i => (sieveNN N).getD i false) =
      (List.range' 1 (N / 2 - 1)).filter (fun i => decide ((2 * i + 1).Prime)) := by
    apply List.filter_congr
    intro i hi
    obtain ⟨hi1, hi2⟩ := List.mem_range'_1.mp hi
    have hiN : i < N / 2 := by omega
    have hiff := sieveNN_prime N i hi1 hiN
    by_cases hb : (sieveNN N).getD i false = true
    · rw [hb]
      exact (decide_eq_true (hiff.mp hb)).symm
    · rw [Bool.not_eq_true] at hb
      rw [hb]
      exact (decide_eq_false (fun hp => by rw [hiff.mpr hp] at hb; exact Bool.noConfusion hb)).symm
  rw [hcg]
  exact two_cons_eq_filter_range N h3

/-- The result list of `get_primes` is exactly the ascending list of primes
below `N`. -/
theorem primesListNP_eq (N : Nat) (h3 : 3 ≤ N) :
    primesListNP N = (List.range N).filter (fun m => decide m.Prime) := by
  unfold primesListNP
  have hsplit : List.range (N / 2) = 0 :: List.range' 1 (N / 2 - 1) := by
    rw [List.range_eq_range']
    have he : N / 2 = (N / 2 - 1) + 1 := by omega
    rw [he, List.range'_succ]
    simp
  rw [hsplit, List.filter_cons,
    if_pos (show ((sieveNP N).getD 0 false : Bool) = true from sieveNP_zero N (by omega)),
    List.drop_succ_cons, List.drop_zero]
  have hcg : (List.range' 1 (N / 2 - 1)).filter (fun i => (sieveNP N).getD i false) =
      (List.range' 1 (N / 2 - 1)).filter (fun i => decide ((2 * i + 1).Prime)) := by
    apply List.filter_congr
    intro i hi
    obtain ⟨hi1, hi2⟩ := List.mem_range'_1.mp hi
    have hiN : i < N / 2 := by omega
    have hiff := sieveNP_prime N i hi1 hiN
    by_cases hb : (sieveNP N).getD i false = true
    · rw [hb]
      exact (decide_eq_true (hiff.mp hb)).symm
    · rw [Bool.not_eq_true] at hb
      rw [hb]
      exact (decide_eq_false (fun hp => by rw [hiff.mpr hp] at hb; exact Bool.noConfusion hb)).symm
  rw [hcg]
  exact two_cons_eq_filter_range N h3

/-- Claim C5: for every integer limit `N ≥ 3`, both sieves return exactly the
primes strictly below `N`, in ascending order with no duplicates (the result
equals the prime-filtered range, which is that canonical ascending list). -/
theorem c5_theorem (N : Int) (h3 : 3 ≤ N) :
    get_primes_without_numpy N =
        .ok ((List.range N.toNat).filter (fun m => decide m.Prime)) ∧
      get_primes N = .ok ((List.range N.toNat).filter (fun m => decide m.Prime)) := by
  have hN : (3 : Nat) ≤ N.toNat := by omega
  unfold get_primes_without_numpy get_primes
  rw [if_neg (by omega), if_neg (by omega), if_neg (by omega), if_neg (by omega)]
  exact ⟨congrArg Except.ok (primesListNN_eq _ hN), congrArg Except.ok (primesListNP_eq _ hN)⟩

/-- Witness for `c5_theorem` at `N = 100`: both sieves return the 25 primes
below 100. -/
theorem c5_witness :
    (3 : Int) ≤ 100 ∧
      get_primes_without_numpy 100 =
        .ok ((List.range (100 : Int).toNat).filter (fun m => decide m.Prime)) ∧
      get_primes 100 = .ok ((List.range (100 : Int).toNat).filter (fun m => decide m.Prime)) ∧
      get_primes_without_numpy 100 = .ok [2, 3, 5, 7, 11, 13, 17, 19, 23, 29, 31, 37, 41,
        43, 47, 53, 59, 61, 67, 71, 73, 79, 83, 89, 97] ∧
      get_primes 100 = .ok [2, 3, 5, 7, 11, 13, 17, 19, 23, 29, 31, 37, 41, 43, 47, 53,
        59, 61, 67, 71, 73, 79, 83, 89, 97] :=
  ⟨by decide, (c5_theorem 100 (by decide)).1, (c5_theorem 100 (by decide)).2,
    by decide, by decide⟩

/-! ## C9: prime_factors -/

theorem prod_bump (p : Nat) : ∀ l : List (Nat × Nat),
    prodFactors (bump p l) = p * prodFactors l := by
  intro l
  induction l with
  | nil => simp [bump, prodFactors]
  | cons pe t ih =>
    unfold bump
    by_cases h : pe.1 = p
    · rw [if_pos h]
      show pe.1 ^ (pe.2 + 1) * prodFactors t = p * (pe.1 ^ pe.2 * prodFactors t)
      rw [h, pow_succ]
      ring
    · rw [if_neg h]
      show pe.1 ^ pe.2 * prodFactors (bump p t) = p * (pe.1 ^ pe.2 * prodFactors t)
      rw [ih]
      ring

theorem bump_mem (p : Nat) : ∀ (l : List (Nat × Nat)) (x : Nat × Nat),
    x ∈ bump p l → x.1 = p ∨ x ∈ l := by
  intro l
  induction l with
  | nil =>
    intro x hx
    rcases List.mem_singleton.mp hx with rfl
    exact Or.inl rfl
  | cons pe t ih =>
    intro x hx
    unfold bump at hx
    by_cases h : pe.1 = p
    · rw [if_pos h] at hx
      rcases List.mem_cons.mp hx with rfl | hx
      · exact Or.inl h
      · exact Or.inr (List.mem_cons_of_mem pe hx)
    · rw [if_neg h] at hx
      rcases List.mem_cons.mp hx with hxe | hx
      · rw [hxe]
        exact Or.inr (List.mem_cons_self pe t)
      · rcases ih x hx with h1 | h1
        · exact Or.inl h1
        · exact Or.inr (List.mem_cons_of_mem pe h1)

theorem prod_setOne (p : Nat) : ∀ l : List (Nat × Nat), (∀ e, (p, e) ∉ l) →
    prodFactors (setOne p l) = p * prodFactors l := by
  intro l
  induction l with
  | nil => intro _; simp [setOne, prodFactors]
  | cons pe t ih =>
    intro hp
    unfold setOne
    by_cases h : pe.1 = p
    · exfalso
      apply hp pe.2
      have hpe : (p, pe.2) = pe := by
        rw [← h]
      rw [hpe]
      exact List.mem_cons_self pe t
    · rw [if_neg h]
      show pe.1 ^ pe.2 * prodFactors (setOne p t) = p * (pe.1 ^ pe.2 * prodFactors t)
      rw [ih (fun e he => hp e (List.mem_cons_of_mem pe he))]
      ring

theorem setOne_mem (p : Nat) : ∀ (l : List (Nat × Nat)) (x : Nat × Nat),
    x ∈ setOne p l → x.1 = p ∨ x ∈ l := by
  intro l
  induction l with
  | nil =>
    intro x hx
    rcases List.mem_singleton.mp hx with rfl
    exact Or.inl rfl
  | cons pe t ih =>
    intro x hx
    unfold setOne at hx
    by_cases h : pe.1 = p
    · rw [if_pos h] at hx
      rcases List.mem_cons.mp hx with rfl | hx
      · exact Or.inl h
      · exact Or.inr (List.mem_cons_of_mem pe hx)
    · rw [if_neg h] at hx
      rcases List.mem_cons.mp hx with hxe | hx
      · rw [hxe]
        exact Or.inr (List.mem_cons_self pe t)
      · rcases ih x hx with h1 | h1
        · exact Or.inl h1
        · exact Or.inr (List.mem_cons_of_mem pe h1)

/-- Full specification of the division loop: the result divides the input,
is positive and `p`-free, the tracked product is preserved, keys grow only
by `p`, and keys grow at all only when `p` divided the input. -/
theorem divLoopAux_spec (p : Nat) : ∀ (fuel n : Nat) (l : List (Nat × Nat)),
    0 < n → n ≤ fuel → 2 ≤ p →
    (divLoopAux p fuel n l).1 ∣ n ∧ 0 < (divLoopAux p fuel n l).1 ∧
      ¬ p ∣ (divLoopAux p fuel n l).1 ∧
      prodFactors (divLoopAux p fuel n l).2 * (divLoopAux p fuel n l).1 =
        prodFactors l * n ∧
      (∀ x ∈ (divLoopAux p fuel n l).2, x.1 = p ∨ x ∈ l) ∧
      ((divLoopAux p fuel n l).2 = l ∨ p ∣ n) := by
  intro fuel
  induction fuel with
  | zero =>
    intro n l hn hf _
    omega
  | succ fuel ih =>
    intro n l hn hf hp
    unfold divLoopAux
    by_cases hg : 2 ≤ p ∧ 0 < n ∧ n % p = 0
    · rw [if_pos hg]
      have hdvd : p ∣ n := Nat.dvd_of_mod_eq_zero hg.2.2
      have hnp : 0 < n / p := Nat.div_pos (Nat.le_of_dvd hn hdvd) (by omega)
      have hle2 : n / p ≤ n / 2 := Nat.div_le_div_left hp (by omega)
      have hlt : n / 2 < n := Nat.div_lt_self hn (by omega)
      obtain ⟨h1, h2, h3, h4, h5, _⟩ := ih (n / p) (bump p l) hnp (by omega) hp
      refine ⟨h1.trans (Nat.div_dvd_of_dvd hdvd), h2, h3, ?_, ?_, Or.inr hdvd⟩
      · rw [h4, prod_bump]
        rw [Nat.mul_comm p (prodFactors l), Nat.mul_assoc, Nat.mul_div_cancel' hdvd]
      · intro x hx
        rcases h5 x hx with h6 | h6
        · exact Or.inl h6
        · exact bump_mem p l x h6
    · rw [if_neg hg]
      have hmod : ¬ n % p = 0 := by
        intro hc
        exact hg ⟨hp, hn, hc⟩
      exact ⟨Nat.dvd_refl n, hn, fun hc => hmod (Nat.mod_eq_zero_of_dvd hc),
        rfl, fun x hx => Or.inr hx, Or.inl rfl⟩

/-- Specification of the division loop through its entry point. -/
theorem divLoop_spec (p n : Nat) (l : List (Nat × Nat)) (hn : 0 < n) (hp : 2 ≤ p) :
    (divLoop p n l).1 ∣ n ∧ 0 < (divLoop p n l).1 ∧ ¬ p ∣ (divLoop p n l).1 ∧
      prodFactors (divLoop p n l).2 * (divLoop p n l).1 = prodFactors l * n ∧
      (∀ x ∈ (divLoop p n l).2, x.1 = p ∨ x ∈ l) ∧
      ((divLoop p n l).2 = l ∨ p ∣ n) :=
  divLoopAux_spec p n n l hn (Nat.le_refl n) hp

/-- Specification of the odd trial-division loop over `range' a k 2`: given
that every prime factor of `n` is at least `a` (`a` odd, at least 3) and
every dict key is prime and does not divide `n`, the loop preserves the
tracked product, keeps the keys prime and coprime to the running value, and
leaves a value whose prime factors all reach `a + 2 * k`. -/
theorem forLoop_spec : ∀ (k a n : Nat) (l : List (Nat × Nat)),
    a % 2 = 1 → 3 ≤ a → 0 < n →
    (∀ q, q.Prime → q ∣ n → a ≤ q) →
    (∀ x ∈ l, x.1.Prime) →
    (∀ x ∈ l, ¬ x.1 ∣ n) →
    (forLoop (List.range' a k 2) n l).1 ∣ n ∧ 0 < (forLoop (List.range' a k 2) n l).1 ∧
      prodFactors (forLoop (List.range' a k 2) n l).2 * (forLoop (List.range' a k 2) n l).1 =
        prodFactors l * n ∧
      (∀ x ∈ (forLoop (List.range' a k 2) n l).2, x.1.Prime) ∧
      (∀ x ∈ (forLoop (List.range' a k 2) n l).2,
        ¬ x.1 ∣ (forLoop (List.range' a k 2) n l).1) ∧
      (∀ q, q.Prime → q ∣ (forLoop (List.range' a k 2) n l).1 → a + 2 * k ≤ q) := by
  intro k
  induction k with
  | zero =>
    intro a n l ha2 ha3 hn hfac hkp hkc
    exact ⟨Nat.dvd_refl n, hn, rfl, hkp, hkc,
      fun q hq hd => by have := hfac q hq hd; omega⟩
  | succ k ih =>
    intro a n l ha2 ha3 hn hfac hkp hkc
    rw [show List.range' a (k + 1) 2 = a :: List.range' (a + 2) k 2 from
      List.range'_succ a k 2]
    rw [show forLoop (a :: List.range' (a + 2) k 2) n l =
      forLoop (List.range' (a + 2) k 2) (divLoop a n l).1 (divLoop a n l).2 from rfl]
    obtain ⟨hd1, hd2, hd3, hd4, hd5, hd6⟩ := divLoop_spec a n l hn (by omega)
    have hkey1 : ∀ x ∈ (divLoop a n l).2, x.1.Prime := by
      intro x hx
      rcases hd6 with he | hdvd
      · rw [he] at hx
        exact hkp x hx
      · rcases hd5 x hx with hxa | hxl
        · rw [hxa]
          have ha1 : a ≠ 1 := by omega
          have hmfp := Nat.minFac_prime ha1
          have hmfd := (Nat.minFac_dvd a).trans hdvd
          have hge := hfac _ hmfp hmfd
          have hle := Nat.minFac_le (show 0 < a by omega)
          have hmfa : a.minFac = a := by omega
          rw [← hmfa]
          exact hmfp
        · exact hkp x hxl
    have hkey1c : ∀ x ∈ (divLoop a n l).2, ¬ x.1 ∣ (divLoop a n l).1 := by
      intro x hx hdv
      rcases hd5 x hx with hxa | hxl
      · rw [hxa] at hdv
        exact hd3 hdv
      · exact hkc x hxl (hdv.trans hd1)
    have hfac1 : ∀ q, q.Prime → q ∣ (divLoop a n l).1 → a + 2 ≤ q := by
      intro q hq hdq
      have hge := hfac q hq (hdq.trans hd1)
      have hne : q ≠ a := fun he => hd3 (he ▸ hdq)
      have hne1 : q ≠ a + 1 := by
        intro he
        have hq2 : q = 2 := (Nat.Prime.even_iff hq).mp
          (by rw [he]; exact Nat.even_iff.mpr (by omega))
        omega
      omega
    obtain ⟨hh1, hh2, hh3, hh4, hh5, hh6⟩ := ih (a + 2) (divLoop a n l).1 (divLoop a n l).2
      (by omega) (by omega) hd2 hfac1 hkey1 hkey1c
    refine ⟨hh1.trans hd1, hh2, ?_, hh4, hh5,
      fun q hq hdq => by have := hh6 q hq hdq; omega⟩
    rw [hh3, hd4]

/-- Corollary of `forLoop_spec` for the loop range actually used by
`prime_factors` (`pList m`): every prime factor of the final value exceeds
the square root of `m`. -/
theorem forLoop_pList_spec (m : Nat) (l : List (Nat × Nat)) (hm : 0 < m)
    (hfac : ∀ q, q.Prime → q ∣ m → 3 ≤ q)
    (hkp : ∀ x ∈ l, x.1.Prime) (hkc : ∀ x ∈ l, ¬ x.1 ∣ m) :
    (forLoop (pList m) m l).1 ∣ m ∧ 0 < (forLoop (pList m) m l).1 ∧
      prodFactors (forLoop (pList m) m l).2 * (forLoop (pList m) m l).1 =
        prodFactors l * m ∧
      (∀ x ∈ (forLoop (pList m) m l).2, x.1.Prime) ∧
      (∀ x ∈ (forLoop (pList m) m l).2, ¬ x.1 ∣ (forLoop (pList m) m l).1) ∧
      (∀ q, q.Prime → q ∣ (forLoop (pList m) m l).1 → Nat.sqrt m < q) := by
  have hsp := forLoop_spec ((isqrt m - 1) / 2) 3 m l (by omega) (by omega) hm hfac hkp hkc
  refine ⟨hsp.1, hsp.2.1, hsp.2.2.1, hsp.2.2.2.1, hsp.2.2.2.2.1, fun q hq hd => ?_⟩
  have h6 := hsp.2.2.2.2.2 q hq hd
  have he := isqrt_eq_sqrt m
  omega

/-- Specification of the outer factorization loop: starting from a dict
whose keys are prime and coprime to `n`, the final dict has prime keys and
its tracked product accumulates exactly `n`. -/
theorem factorLoopAux_spec : ∀ (fuel n : Nat) (l : List (Nat × Nat)),
    n ≤ fuel → 0 < n →
    (∀ x ∈ l, x.1.Prime) →
    (∀ x ∈ l, ¬ x.1 ∣ n) →
    (∀ x ∈ factorLoopAux fuel n l, x.1.Prime) ∧
      prodFactors (factorLoopAux fuel n l) = prodFactors l * n := by
  intro fuel
  induction fuel with
  | zero =>
    intro n l hf hn _ _
    omega
  | succ fuel ih =>
    intro n l hf hn hkp hkc
    unfold factorLoopAux
    by_cases hg : 1 < n
    · rw [if_pos hg]
      obtain ⟨hd1, hd2, hd3, hd4, hd5, hd6⟩ := divLoop_spec 2 n l hn (Nat.le_refl 2)
      have hkey1 : ∀ x ∈ (divLoop 2 n l).2, x.1.Prime := by
        intro x hx
        rcases hd5 x hx with hx2 | hxl
        · rw [hx2]
          exact Nat.prime_two
        · exact hkp x hxl
      have hkey1c : ∀ x ∈ (divLoop 2 n l).2, ¬ x.1 ∣ (divLoop 2 n l).1 := by
        intro x hx hdv
        rcases hd5 x hx with hx2 | hxl
        · rw [hx2] at hdv
          exact hd3 hdv
        · exact hkc x hxl (hdv.trans hd1)
      have hfac1 : ∀ q, q.Prime → q ∣ (divLoop 2 n l).1 → 3 ≤ q := by
        intro q hq hdq
        have h2 := hq.two_le
        rcases Nat.lt_or_ge q 3 with h | h
        · have hq2 : q = 2 := by omega
          rw [hq2] at hdq
          exact absurd hdq hd3
        · exact h
      obtain ⟨hh1, hh2, hh3, hh4, hh5, hh6⟩ :=
        forLoop_pList_spec (divLoop 2 n l).1 (divLoop 2 n l).2 hd2 hfac1 hkey1 hkey1c
      by_cases he : (forLoop (pList (divLoop 2 n l).1) (divLoop 2 n l).1 (divLoop 2 n l).2).1 = n
      · rw [if_pos he]
        have hn1 : n ∣ (divLoop 2 n l).1 := by
          conv_lhs => rw [← he]
          exact hh1
        have hst1n : (divLoop 2 n l).1 = n := Nat.dvd_antisymm hd1 hn1
        have hnp : n.Prime := by
          by_contra hnpr
          have hmfp := Nat.minFac_prime (show n ≠ 1 by omega)
          have hmfd := Nat.minFac_dvd n
          have hsql := Nat.minFac_sq_le_self (show 0 < n by omega) hnpr
          rw [Nat.pow_two] at hsql
          have h1 : n.minFac ≤ Nat.sqrt n := Nat.le_sqrt.mpr hsql
          have h2 := hh6 n.minFac hmfp (by rw [he]; exact hmfd)
          rw [hst1n] at h2
          omega
        constructor
        · intro x hx
          rcases setOne_mem n _ x hx with hx1 | hx1
          · rw [hx1]
            exact hnp
          · exact hh4 x hx1
        · rw [prod_setOne n _ ?_]
          · have hpr := hh3
            rw [he, hd4] at hpr
            rw [Nat.mul_comm]
            exact hpr
          · intro e hmem
            refine hh5 (n, e) hmem ?_
            rw [he]
      · rw [if_neg he]
        have hlt : (forLoop (pList (divLoop 2 n l).1) (divLoop 2 n l).1 (divLoop 2 n l).2).1
            < n := by
          have hle := Nat.le_of_dvd hn (hh1.trans hd1)
          omega
        obtain ⟨hr1, hr2⟩ := ih _ _ (by omega) hh2 hh4 hh5
        refine ⟨hr1, ?_⟩
        rw [hr2, hh3, hd4]
    · rw [if_neg hg]
      have hn1 : n = 1 := by omega
      exact ⟨hkp, by rw [hn1, Nat.mul_one]⟩

/-- Claim C9: for every integer `n ≥ 2`, `prime_factors` succeeds, every key
of the returned mapping is prime, and the product of `key ^ multiplicity`
over all entries is `n`. -/
theorem c9_theorem (n : Int) (h2 : 2 ≤ n) :
    prime_factors n = .ok (factorLoop n.toNat []) ∧
      (∀ x ∈ factorLoop n.toNat [], x.1.Prime) ∧
      prodFactors (factorLoop n.toNat []) = n.toNat := by
  have hn : 0 < n.toNat := by omega
  obtain ⟨hk, hp⟩ := factorLoopAux_spec n.toNat n.toNat [] (Nat.le_refl _) hn
    (fun x hx => absurd hx (List.not_mem_nil x))
    (fun x hx => absurd hx (List.not_mem_nil x))
  refine ⟨?_, hk, ?_⟩
  · unfold prime_factors
    rw [if_neg (by omega)]
  · rw [show factorLoop n.toNat [] = factorLoopAux n.toNat n.toNat [] from rfl, hp]
    simp [prodFactors]

/-- Witness for `c9_theorem` at `n = 12` (`12 = 2^2 * 3`). -/
theorem c9_witness :
    (2 : Int) ≤ 12 ∧ prime_factors 12 = .ok (factorLoop (12 : Int).toNat []) ∧
      (∀ x ∈ factorLoop (12 : Int).toNat [], x.1.Prime) ∧
      prodFactors (factorLoop (12 : Int).toNat []) = (12 : Int).toNat ∧
      prime_factors 12 = .ok [(2, 2), (3, 1)] :=
  ⟨by decide, (c9_theorem 12 (by decide)).1, (c9_theorem 12 (by decide)).2.1,
    (c9_theorem 12 (by decide)).2.2, by decide⟩

/-! ## C7: concrete scenarios -/

/-- Claim C7: the concrete scenarios of the spec, run on the embedded code:
`55687 = 233 * 239` is rejected, the Carmichael number `561` is rejected,
`97` and `2` are accepted, and the sieve at limit `10` yields `[2, 3, 5, 7]`. -/
theorem c7_theorem :
    (233 * 239 : Nat) = 55687 ∧
      miller_rabin 55687 [] = .ok false ∧ miller_rabin 561 [] = .ok false ∧
      miller_rabin 97 [] = .ok true ∧ miller_rabin 2 [] = .ok true ∧
      get_primes_without_numpy 10 = .ok [2, 3, 5, 7] := by decide

end PrimeFunctions
